import Mathlib

/-!
Verification of the bingo subsystem (`day04.rs`) of the adventofcode2021
repository: cell/card data model, `mark_value` win detection, the two game
traversals `find_winning_call` / `find_last_winner`, and the chunked
state-machine parser for `BingoGame`.

Strings are embedded as `List Char`; machine integers (`u64`) as `Nat`
(all values in play are two-digit cell values and small sums, far from the
word size).  The one panic site of the code — the index `r[x]` in the
column-completeness check of `mark_value`, reachable when rows have unequal
lengths — is modelled by `markValue` returning `Option`: `none` is a panic.
-/

set_option autoImplicit false

namespace AoC2021.Day04

/-- Status of one bingo cell (`BingoCellStatus` in the source). -/
inductive BingoCellStatus where
  | Marked
  | Unmarked
deriving DecidableEq, Repr

/-- One bingo cell: a value together with its marked status. -/
structure BingoCell where
  value : Nat
  status : BingoCellStatus
deriving DecidableEq, Repr

instance : Inhabited BingoCell := ⟨⟨0, .Unmarked⟩⟩

/-- Status of a card: unsolved, or solved with the triggering call and the
sum of the values that were still unmarked after the triggering mark. -/
inductive BingoCardStatus where
  | Unsolved
  | Solved (call : Nat) (sum : Nat)
deriving DecidableEq, Repr

/-- A bingo card: a row-major matrix of cells plus its status. -/
structure BingoCard where
  cells : List (List BingoCell)
  status : BingoCardStatus
deriving DecidableEq, Repr

instance : Inhabited BingoCard := ⟨⟨[], .Unsolved⟩⟩

/-- Sum of the values of all unmarked cells
(`BingoCard::unmarked_sum`: nested iterator sums over rows). -/
def unmarkedSum (cells : List (List BingoCell)) : Nat :=
  (cells.map fun row =>
    ((row.filter fun c => c.status = .Unmarked).map fun c => c.value).sum).sum

/-- `row.iter().all(|c| c.status() == Marked)`. -/
def rowAllMarked (row : List BingoCell) : Bool :=
  row.all fun c => c.status = .Marked

/-- `self.cells.iter().all(|r| r[x].status() == Marked)`: the short-circuit
column check of `mark_value`.  `none` models the panic of `r[x]` when some
row examined before the first unmarked entry is shorter than `x + 1`. -/
def colAllMarked (cells : List (List BingoCell)) (x : Nat) : Option Bool :=
  match cells with
  | [] => some true
  | r :: rest =>
    match r.get? x with
    | none => none
    | some c => if c.status = .Marked then colAllMarked rest x else some false

/-- Inner loop of the scan of `mark_value` over one row: marks the first
cell whose value equals `v` and stops, returning its column index. -/
def markRow (row : List BingoCell) (v : Nat) : List BingoCell × Option Nat :=
  match row with
  | [] => ([], none)
  | c :: rest =>
    if c.value = v then ({ c with status := .Marked } :: rest, some 0)
    else
      let (rest', r) := markRow rest v
      (c :: rest', r.map fun x => x + 1)

/-- Outer loop of the scan of `mark_value`: row-major, stops at the first
row that contained `v`, returning the `(x, y)` coordinates of the mark. -/
def markCells (cells : List (List BingoCell)) (v : Nat) :
    List (List BingoCell) × Option (Nat × Nat) :=
  match cells with
  | [] => ([], none)
  | row :: rest =>
    match markRow row v with
    | (row', some x) => (row' :: rest, some (x, 0))
    | (row', none) =>
      let (rest', r) := markCells rest v
      (row' :: rest', r.map fun p => (p.1, p.2 + 1))

/-- `BingoCard::mark_value`: marks the first cell holding `value`, then, if a
cell was marked, sets the status to `Solved` when the marked cell's row or
column is now entirely marked; returns the (possibly updated) status paired
with the updated card.  `none` is the `r[x]` panic of the column check. -/
def markValue (card : BingoCard) (value : Nat) :
    Option (BingoCardStatus × BingoCard) :=
  let (cells', marked) := markCells card.cells value
  match marked with
  | none => some (card.status, { card with cells := cells' })
  | some (x, y) =>
    if rowAllMarked (cells'.getD y []) then
      let st := BingoCardStatus.Solved value (unmarkedSum cells')
      some (st, { cells := cells', status := st })
    else
      match colAllMarked cells' x with
      | none => none
      | some true =>
        let st := BingoCardStatus.Solved value (unmarkedSum cells')
        some (st, { cells := cells', status := st })
      | some false => some (card.status, { card with cells := cells' })

/-- The bingo game: the ordered call list and the ordered card list. -/
structure BingoGame where
  calls : List Nat
  cards : List BingoCard
deriving DecidableEq, Repr

/-- Inner loop of `find_winning_call` over the cards for one call: marks each
card in order and returns early with the first `Solved` status observed. -/
def runCallFirst (cards : List BingoCard) (c : Nat) :
    Option (List BingoCard × Option BingoCardStatus) :=
  match cards with
  | [] => some ([], none)
  | card :: rest =>
    match markValue card c with
    | none => none
    | some (st, card') =>
      match st with
      | .Solved cl s => some (card' :: rest, some (.Solved cl s))
      | .Unsolved =>
        (runCallFirst rest c).map fun p => (card' :: p.1, p.2)

/-- Loop of `find_winning_call` over the calls. -/
def findWinningCallAux (calls : List Nat) (cards : List BingoCard) :
    Option BingoCardStatus :=
  match calls with
  | [] => some .Unsolved
  | c :: cs =>
    match runCallFirst cards c with
    | none => none
    | some (_, some st) => some st
    | some (cards', none) => findWinningCallAux cs cards'

/-- `BingoGame::find_winning_call`. -/
def findWinningCall (g : BingoGame) : Option BingoCardStatus :=
  findWinningCallAux g.calls g.cards

/-- Inner loop of `find_last_winner` for one call: only still-unsolved cards
are marked; a transition to `Solved` bumps the win count and updates the
last win; when the win count reaches `cardCount` the whole traversal
returns (`Sum.inr`).  `Sum.inl` carries the state for the next call. -/
def runCallLast (cards : List BingoCard) (c : Nat) (winCount : Nat)
    (lastWin : Option BingoCardStatus) (cardCount : Nat) :
    Option ((List BingoCard × Nat × Option BingoCardStatus) ⊕
      Option BingoCardStatus) :=
  match cards with
  | [] => some (.inl ([], winCount, lastWin))
  | card :: rest =>
    if card.status = .Unsolved then
      match markValue card c with
      | none => none
      | some (st, card') =>
        match st with
        | .Solved cl s =>
          let lastWin' : Option BingoCardStatus := some (.Solved cl s)
          if winCount + 1 = cardCount then some (.inr lastWin')
          else
            (runCallLast rest c (winCount + 1) lastWin' cardCount).map fun r =>
              match r with
              | .inl (rest', w, l) => .inl (card' :: rest', w, l)
              | .inr out => .inr out
        | .Unsolved =>
          (runCallLast rest c winCount lastWin cardCount).map fun r =>
            match r with
            | .inl (rest', w, l) => .inl (card' :: rest', w, l)
            | .inr out => .inr out
    else
      (runCallLast rest c winCount lastWin cardCount).map fun r =>
        match r with
        | .inl (rest', w, l) => .inl (card :: rest', w, l)
        | .inr out => .inr out

/-- Loop of `find_last_winner` over the calls. -/
def findLastWinnerAux (calls : List Nat) (cards : List BingoCard)
    (winCount : Nat) (lastWin : Option BingoCardStatus) (cardCount : Nat) :
    Option (Option BingoCardStatus) :=
  match calls with
  | [] => some lastWin
  | c :: cs =>
    match runCallLast cards c winCount lastWin cardCount with
    | none => none
    | some (.inr out) => some out
    | some (.inl (cards', w', l')) => findLastWinnerAux cs cards' w' l' cardCount

/-- `BingoGame::find_last_winner`. -/
def findLastWinner (g : BingoGame) : Option (Option BingoCardStatus) :=
  findLastWinnerAux g.calls g.cards 0 none g.cards.length

/-! ## The parser (`FromStr for BingoCell / BingoCard / BingoGame`) -/

/-- Parse errors of the two token-level parsers, tagged with the offending
token (`anyhow` errors with their context in the source). -/
inductive ParseErr where
  | invalidCall (tok : List Char)
  | invalidCell (tok : List Char)
deriving DecidableEq, Repr

/-- Errors of `TryFrom<BingoGameParserState> for BingoGame`: a captured
parse error wrapped with the context "Unable to parse game", or the
"Unable to parse game: Unknown error" produced for every other
non-`Boards` terminal state. -/
inductive GameErr where
  | parseFailure (e : ParseErr)
  | unknownFailure
deriving DecidableEq, Repr

/-- Digit run to its numeric value. -/
def digitsToNat (cs : List Char) : Nat :=
  cs.foldl (fun n c => n * 10 + (c.toNat - '0'.toNat)) 0

/-- Body of `u64::from_str`: a non-empty run of decimal digits. -/
def parseDigits (cs : List Char) : Option Nat :=
  if cs ≠ [] ∧ cs.all Char.isDigit then some (digitsToNat cs) else none

/-- `str::parse::<u64>`: optional leading plus sign, then digits only. -/
def parseU64 (cs : List Char) : Option Nat :=
  match cs with
  | '+' :: rest => parseDigits rest
  | _ => parseDigits cs

/-- `str::trim` restricted to the characters a token can hold here. -/
def trimSpaces (cs : List Char) : List Char :=
  ((cs.dropWhile fun c => c = ' ').reverse.dropWhile fun c => c = ' ').reverse

/-- A character the row regex accepts inside a two-character field
(`[ \d]`). -/
def isFieldChar (c : Char) : Bool :=
  c = ' ' ∨ c.isDigit

/-- `ROW_REGEX.captures`: the line must be exactly five two-character
fields of spaces and digits joined by single spaces; on a match the five
captured fields are returned. -/
def rowFields (l : List Char) : Option (List (List Char)) :=
  match l with
  | [a, b, ' ', c, d, ' ', e, f, ' ', g, h, ' ', i, j] =>
    if [a, b, c, d, e, f, g, h, i, j].all isFieldChar then
      some [[a, b], [c, d], [e, f], [g, h], [i, j]]
    else none
  | _ => none

/-- `BingoCell::from_str`: trim the two-character field and parse it. -/
def parseBingoCell (tok : List Char) : Except ParseErr BingoCell :=
  match parseU64 (trimSpaces tok) with
  | some n => .ok { value := n, status := .Unmarked }
  | none => .error (.invalidCell tok)

/-- Parse the five captured fields of one matched row, stopping at the
first failing field (`collect::<Result<Vec<_>>>`). -/
def parseRowCells (fields : List (List Char)) : Except ParseErr (List BingoCell) :=
  match fields with
  | [] => .ok []
  | f :: rest =>
    match parseBingoCell f with
    | .error e => .error e
    | .ok c =>
      match parseRowCells rest with
      | .error e => .error e
      | .ok cs => .ok (c :: cs)

/-- `collect::<Result<Vec<Vec<_>>>>` over the parsed rows: first error
wins. -/
def collectRows (rows : List (Except ParseErr (List BingoCell))) :
    Except ParseErr (List (List BingoCell)) :=
  match rows with
  | [] => .ok []
  | r :: rest =>
    match r with
    | .error e => .error e
    | .ok row =>
      match collectRows rest with
      | .error e => .error e
      | .ok rows' => .ok (row :: rows')

/-- Split on every occurrence of one separator character
(`str::split(',')` and the line splitter under `str::lines`). -/
def splitOnChar (sep : Char) (s : List Char) : List (List Char) :=
  match s with
  | [] => [[]]
  | c :: rest =>
    if c = sep then [] :: splitOnChar sep rest
    else
      match splitOnChar sep rest with
      | [] => [[c]]
      | chunk :: chunks => (c :: chunk) :: chunks

/-- The trailing carriage-return strip `str::lines` applies per line. -/
def stripCr (l : List Char) : List Char :=
  if l.getLast? = some '\r' then l.dropLast else l

/-- `str::lines`: split on newline, drop the final empty segment of a
newline-terminated string, strip one trailing carriage return per line. -/
def rustLines (s : List Char) : List (List Char) :=
  match s with
  | [] => []
  | _ =>
    let parts := splitOnChar '\n' s
    (if parts.getLast? = some [] then parts.dropLast else parts).map stripCr

/-- `BingoCard::from_str` on a list of lines: the first five lines are
considered, lines the row regex rejects are dropped, matched lines parse
their five fields, and the first field error fails the card. -/
def parseCardLines (ls : List (List Char)) : Except ParseErr BingoCard :=
  match collectRows
      ((ls.take 5).filterMap fun l => (rowFields l).map parseRowCells) with
  | .error e => .error e
  | .ok cells => .ok { cells := cells, status := .Unsolved }

/-- `BingoCard::from_str`. -/
def parseCard (s : List Char) : Except ParseErr BingoCard :=
  parseCardLines (rustLines s)

/-- Parse the comma-separated call tokens, first error wins
(`chunk.split(',') ... collect::<Result<Vec<_>>>`). -/
def collectCalls (toks : List (List Char)) : Except ParseErr (List Nat) :=
  match toks with
  | [] => .ok []
  | t :: rest =>
    match parseU64 t with
    | none => .error (.invalidCall t)
    | some n =>
      match collectCalls rest with
      | .error e => .error e
      | .ok ns => .ok (n :: ns)

/-- The calls-line parser of the `WaitingForCalls` state. -/
def parseCalls (chunk : List Char) : Except ParseErr (List Nat) :=
  collectCalls (splitOnChar ',' chunk)

/-- The fold state of `FromStr for BingoGame`. -/
inductive BingoGameParserState where
  | WaitingForCalls
  | Calls (calls : List Nat)
  | Boards (calls : List Nat) (cards : List BingoCard)
  | Error (e : ParseErr)
deriving Repr

/-- One step of the fold of `FromStr for BingoGame` on one chunk. -/
def stepChunk (state : BingoGameParserState) (chunk : List Char) :
    BingoGameParserState :=
  match state with
  | .WaitingForCalls =>
    match parseCalls chunk with
    | .ok calls => .Calls calls
    | .error e => .Error e
  | .Calls calls =>
    match parseCard chunk with
    | .ok card => .Boards calls [card]
    | .error e => .Error e
  | .Boards calls cards =>
    match parseCard chunk with
    | .ok card => .Boards calls (cards ++ [card])
    | .error e => .Error e
  | .Error e => .Error e

/-- `str::split("\n\n")`: non-overlapping left-to-right splitting on two
consecutive newlines. -/
def splitChunks (s : List Char) : List (List Char) :=
  match s with
  | [] => [[]]
  | '\n' :: '\n' :: rest => [] :: splitChunks rest
  | c :: rest =>
    match splitChunks rest with
    | [] => [[c]]
    | chunk :: chunks => (c :: chunk) :: chunks

/-- `TryFrom<BingoGameParserState> for BingoGame`. -/
def tryFromState (state : BingoGameParserState) : Except GameErr BingoGame :=
  match state with
  | .Boards calls cards => .ok { calls := calls, cards := cards }
  | .Error e => .error (.parseFailure e)
  | _ => .error .unknownFailure

/-- `FromStr for BingoGame`: fold the chunk list through the state machine
and convert the final state. -/
def gameFromStr (s : List Char) : Except GameErr BingoGame :=
  tryFromState ((splitChunks s).foldl stepChunk .WaitingForCalls)

/-! ## The concrete test input (`test::TEST_INPUT`) -/

/-- The test input of the source's `mod test`, verbatim. -/
def testInput : String :=
  "7,4,9,5,11,17,23,2,0,14,21,24,10,16,13,6,15,25,12,22,18,20,8,19,3,26,1\n\n22 13 17 11  0\n 8  2 23  4 24\n21  9 14 16  7\n 6 10  3 18  5\n 1 12 20 15 19\n\n 3 15  0  2 22\n 9 18 13 17  5\n19  8  7 25 23\n20 11 10 24  4\n14 21 16 12  6\n\n14 21 17 24  4\n10 16 15  9 19\n18  8 23 26 20\n22 11 13  6  5\n 2  0 12  3  7"

/-- The test input as a character list. -/
def testInputChars : List Char :=
  testInput.data

/-! ## Specification-level definitions

These follow the words of the specification rather than the control flow of
the source; the claim theorems relate the two. -/

/-- Index of the first cell of a row holding `v`. -/
def findInRow (row : List BingoCell) (v : Nat) : Option Nat :=
  match row with
  | [] => none
  | c :: rest =>
    if c.value = v then some 0 else (findInRow rest v).map fun x => x + 1

/-- `(y, x)` position of the first cell, in row-major order, holding `v`. -/
def firstOccurrence (cells : List (List BingoCell)) (v : Nat) :
    Option (Nat × Nat) :=
  match cells with
  | [] => none
  | row :: rest =>
    match findInRow row v with
    | some x => some (0, x)
    | none => (firstOccurrence rest v).map fun p => (p.1 + 1, p.2)

/-- The column through index `x` is entirely marked. -/
def colMarkedSpec (cells : List (List BingoCell)) (x : Nat) : Bool :=
  cells.all fun r => (r.getD x default).status = .Marked

/-- The matrix after marking the cell at row `y`, column `x`. -/
def markCellsSpec (cells : List (List BingoCell)) (y x : Nat) :
    List (List BingoCell) :=
  cells.set y ((cells.getD y []).set x
    { (cells.getD y []).getD x default with status := .Marked })

/-- The status transition the specification words: exactly when the marked
cell's row or column is entirely marked, the status becomes `Solved` with
the call and the sum of the values still unmarked after the mark. -/
def solveCheck (oldStatus : BingoCardStatus) (v : Nat)
    (cells' : List (List BingoCell)) (x y : Nat) : BingoCardStatus × BingoCard :=
  let st :=
    if rowAllMarked (cells'.getD y []) || colMarkedSpec cells' x then
      BingoCardStatus.Solved v (unmarkedSum cells')
    else oldStatus
  (st, { cells := cells', status := st })

/-- `mark_value` as the specification words it: mark the first cell, in
row-major order, whose value equals `v` (if any), then apply the win check
of `solveCheck`; the current status is returned. -/
def markValueSpec (card : BingoCard) (v : Nat) : BingoCardStatus × BingoCard :=
  match firstOccurrence card.cells v with
  | none => (card.status, card)
  | some (y, x) => solveCheck card.status v (markCellsSpec card.cells y x) x y

/-- Whether a card status is `Solved`. -/
def isSolved (st : BingoCardStatus) : Bool :=
  match st with
  | .Unsolved => false
  | .Solved _ _ => true

/-- Mark one call against every card, with no early exit, collecting the
statuses `mark_value` reports in card order. -/
def runCallAll (cards : List BingoCard) (c : Nat) :
    Option (List BingoCard × List BingoCardStatus) :=
  match cards with
  | [] => some ([], [])
  | card :: rest =>
    match markValue card c with
    | none => none
    | some (st, card') =>
      (runCallAll rest c).map fun p => (card' :: p.1, st :: p.2)

/-- The full status trace of the simulation: every status observed, in call
order and, within one call, in card order. -/
def markTrace (calls : List Nat) (cards : List BingoCard) :
    Option (List BingoCardStatus) :=
  match calls with
  | [] => some []
  | c :: cs =>
    match runCallAll cards c with
    | none => none
    | some (cards', sts) => (markTrace cs cards').map fun tr => sts ++ tr

/-- `find_winning_call` as the specification words it: the first `Solved`
status observed in the trace, or `Unsolved` when none occurs. -/
def findWinningCallSpec (g : BingoGame) : Option BingoCardStatus :=
  (markTrace g.calls g.cards).map fun tr => (tr.find? isSolved).getD .Unsolved

/-- Mark one call against every still-unsolved card (solved cards are
skipped), with no early exit, collecting the `Solved` transitions observed
in card order. -/
def runCallSkip (cards : List BingoCard) (c : Nat) :
    Option (List BingoCard × List BingoCardStatus) :=
  match cards with
  | [] => some ([], [])
  | card :: rest =>
    if card.status = .Unsolved then
      match markValue card c with
      | none => none
      | some (st, card') =>
        (runCallSkip rest c).map fun p =>
          (card' :: p.1, (if isSolved st then [st] else []) ++ p.2)
    else
      (runCallSkip rest c).map fun p => (card :: p.1, p.2)

/-- The trace of `Solved` transitions of the skipping simulation, in call
order and, within one call, in card order. -/
def skipTrace (calls : List Nat) (cards : List BingoCard) :
    Option (List BingoCardStatus) :=
  match calls with
  | [] => some []
  | c :: cs =>
    match runCallSkip cards c with
    | none => none
    | some (cards', tr) => (skipTrace cs cards').map fun tr' => tr ++ tr'

/-- `find_last_winner` as the specification words it: the most recent
`Solved` transition of the skipping simulation, or `none` when no card ever
solved. -/
def findLastWinnerSpec (g : BingoGame) : Option (Option BingoCardStatus) :=
  (skipTrace g.calls g.cards).map fun tr => tr.getLast?

/-- Every row of the matrix has length `n`. -/
def uniformRows (cells : List (List BingoCell)) (n : Nat) : Prop :=
  ∀ r ∈ cells, r.length = n

/-- A card whose rows all share one length (the data-model invariant). -/
def cardWF (card : BingoCard) : Prop :=
  ∃ n, uniformRows card.cells n

/-- A game all of whose cards satisfy `cardWF`. -/
def gameWF (g : BingoGame) : Prop :=
  ∀ card ∈ g.cards, cardWF card

/-- Number of solved cards of a list. -/
def countSolved (cards : List BingoCard) : Nat :=
  cards.countP fun card => isSolved card.status

/-- Apply `mark_value` for its card mutation alone (panic kept as the
unchanged card; never exercised on the concrete inputs below). -/
def markStep (card : BingoCard) (v : Nat) : BingoCard :=
  ((markValue card v).map fun p => p.2).getD card

/-- The invariant the chunk fold maintains on the `Boards` state: a
non-empty card list all of whose rows have exactly five cells. -/
def boardsInv (state : BingoGameParserState) : Prop :=
  match state with
  | .Boards _ cards => cards ≠ [] ∧ ∀ card ∈ cards, uniformRows card.cells 5
  | _ => True

/-! ## Concrete inputs used by counterexamples and witnesses -/

/-- A two-by-two card used to exercise `mark_value` after a solve. -/
def cexCard : BingoCard :=
  { cells := [[⟨1, .Unmarked⟩, ⟨2, .Unmarked⟩], [⟨3, .Unmarked⟩, ⟨4, .Unmarked⟩]],
    status := .Unsolved }

/-- An input whose second card block is junk, parsing to a zero-row card:
the two cards of the resulting game have different row counts. -/
def mismatchInput : String :=
  "1\n\n22 13 17 11  0\n 8  2 23  4 24\n21  9 14 16  7\n 6 10  3 18  5\n 1 12 20 15 19\n\nx"

/-- A card block whose first line is junk: only four of its first five
lines match the row shape, so the parsed card is short (four rows). -/
def shortCardBlock : String :=
  "xx\n22 13 17 11  0\n 8  2 23  4 24\n21  9 14 16  7\n 6 10  3 18  5\n 1 12 20 15 19"

/-- The card parsed from `shortCardBlock`. -/
def shortCard : BingoCard :=
  (parseCard shortCardBlock.data).toOption.getD default

/-- The game parsed from `mismatchInput`. -/
def mismatchGame : BingoGame :=
  (gameFromStr mismatchInput.data).toOption.getD { calls := [], cards := [] }

/-- The game parsed from the test input. -/
def testGame : BingoGame :=
  (gameFromStr testInputChars).toOption.getD { calls := [], cards := [] }

/-! ## Helper lemmas -/

theorem markRow_not_found (row : List BingoCell) (v : Nat)
    (h : ∀ c ∈ row, c.value ≠ v) : markRow row v = (row, none) := by
  induction row with
  | nil => rfl
  | cons c rest ih =>
    have hc : c.value ≠ v := h c (List.mem_cons_self c rest)
    simp only [markRow, if_neg hc,
      ih fun c' hc' => h c' (List.mem_cons_of_mem c hc')]
    rfl

theorem markCells_not_found (cells : List (List BingoCell)) (v : Nat)
    (h : ∀ r ∈ cells, ∀ c ∈ r, c.value ≠ v) : markCells cells v = (cells, none) := by
  induction cells with
  | nil => rfl
  | cons row rest ih =>
    simp only [markCells, markRow_not_found row v (h row (List.mem_cons_self row rest)),
      ih fun r hr => h r (List.mem_cons_of_mem row hr)]
    rfl

theorem markRow_none (row : List BingoCell) (v : Nat)
    (h : findInRow row v = none) : markRow row v = (row, none) := by
  induction row with
  | nil => rfl
  | cons c rest ih =>
    by_cases hc : c.value = v
    · simp [findInRow, hc] at h
    · simp only [findInRow, if_neg hc, Option.map_eq_none'] at h
      simp only [markRow, if_neg hc, ih h]
      rfl

theorem markRow_found (row : List BingoCell) (v x : Nat)
    (h : findInRow row v = some x) :
    markRow row v =
      (row.set x { row.getD x default with status := .Marked }, some x) := by
  induction row generalizing x with
  | nil => simp [findInRow] at h
  | cons c rest ih =>
    by_cases hc : c.value = v
    · simp only [findInRow, if_pos hc, Option.some_inj] at h
      subst h
      simp [markRow, hc]
    · simp only [findInRow, if_neg hc, Option.map_eq_some'] at h
      obtain ⟨x', hx', hfx⟩ := h
      subst hfx
      simp [markRow, if_neg hc, ih x' hx']

theorem firstOccurrence_none (cells : List (List BingoCell)) (v : Nat)
    (h : firstOccurrence cells v = none) : markCells cells v = (cells, none) := by
  induction cells with
  | nil => rfl
  | cons row rest ih =>
    simp only [firstOccurrence] at h
    cases hfi : findInRow row v with
    | some x => simp [hfi] at h
    | none =>
      simp only [hfi, Option.map_eq_none'] at h
      simp only [markCells, markRow_none row v hfi, ih h]
      rfl

theorem markCells_found (cells : List (List BingoCell)) (v x y : Nat)
    (h : firstOccurrence cells v = some (y, x)) :
    markCells cells v = (markCellsSpec cells y x, some (x, y)) := by
  induction cells generalizing y with
  | nil => simp [firstOccurrence] at h
  | cons row rest ih =>
    simp only [firstOccurrence] at h
    cases hfi : findInRow row v with
    | some x0 =>
      simp only [hfi, Option.some_inj, Prod.mk.injEq] at h
      obtain ⟨h1, h2⟩ := h
      subst h1
      subst h2
      simp [markCells, markRow_found row v x0 hfi, markCellsSpec]
    | none =>
      simp only [hfi, Option.map_eq_some'] at h
      obtain ⟨⟨y', x'⟩, hy', heq⟩ := h
      simp only [Prod.mk.injEq] at heq
      obtain ⟨h1, h2⟩ := heq
      subst h1
      subst h2
      simp [markCells, markRow_none row v hfi, ih y' hy', markCellsSpec]

theorem findInRow_lt (row : List BingoCell) (v x : Nat)
    (h : findInRow row v = some x) : x < row.length := by
  induction row generalizing x with
  | nil => simp [findInRow] at h
  | cons c rest ih =>
    by_cases hc : c.value = v
    · simp only [findInRow, if_pos hc, Option.some_inj] at h
      subst h
      simp
    · simp only [findInRow, if_neg hc, Option.map_eq_some'] at h
      obtain ⟨x', hx', hfx⟩ := h
      subst hfx
      have := ih x' hx'
      simp only [List.length_cons]
      omega

theorem firstOccurrence_lt (cells : List (List BingoCell)) (v x y : Nat)
    (h : firstOccurrence cells v = some (y, x)) :
    y < cells.length ∧ findInRow (cells.getD y []) v = some x := by
  induction cells generalizing y with
  | nil => simp [firstOccurrence] at h
  | cons row rest ih =>
    simp only [firstOccurrence] at h
    cases hfi : findInRow row v with
    | some x0 =>
      simp only [hfi, Option.some_inj, Prod.mk.injEq] at h
      obtain ⟨h1, h2⟩ := h
      subst h1
      subst h2
      exact ⟨by simp, by simpa using hfi⟩
    | none =>
      simp only [hfi, Option.map_eq_some'] at h
      obtain ⟨⟨y', x'⟩, hy', heq⟩ := h
      simp only [Prod.mk.injEq] at heq
      obtain ⟨h1, h2⟩ := heq
      subst h1
      subst h2
      obtain ⟨ha, hb⟩ := ih y' hy'
      refine ⟨by simp only [List.length_cons]; omega, by simpa using hb⟩

theorem colAllMarked_eq (cells : List (List BingoCell)) (x : Nat)
    (h : ∀ r ∈ cells, x < r.length) :
    colAllMarked cells x = some (colMarkedSpec cells x) := by
  induction cells with
  | nil => rfl
  | cons r rest ih =>
    have hx : x < r.length := h r (List.mem_cons_self r rest)
    cases hgx : r.get? x with
    | none =>
      have := List.get?_eq_none.mp hgx
      omega
    | some c =>
      have hgx2 : r[x]? = some c := by
        rw [← List.get?_eq_getElem?]
        exact hgx
      by_cases hm : c.status = .Marked
      · simp [colAllMarked, hgx2, hm, colMarkedSpec,
          ih fun r' hr' => h r' (List.mem_cons_of_mem r hr')]
      · simp [colAllMarked, hgx2, hm, colMarkedSpec]

theorem uniformRows_set_mark (cells : List (List BingoCell)) (n x y : Nat)
    (hy : y < cells.length) (h : uniformRows cells n) :
    uniformRows (markCellsSpec cells y x) n := by
  intro r hr
  rw [markCellsSpec] at hr
  rcases List.mem_or_eq_of_mem_set hr with hr' | hr'
  · exact h r hr'
  · subst hr'
    rw [List.length_set]
    apply h
    have hget : cells.getD y [] = cells.get ⟨y, hy⟩ := by
      simp [List.getD_eq_getElem?_getD, ← List.get?_eq_getElem?,
        List.get?_eq_get hy]
    rw [hget]
    exact List.get_mem cells y hy

theorem markValue_eq_spec (card : BingoCard) (v n : Nat)
    (h : uniformRows card.cells n) :
    markValue card v = some (markValueSpec card v) := by
  cases hfo : firstOccurrence card.cells v with
  | none =>
    simp only [markValue, firstOccurrence_none card.cells v hfo, markValueSpec,
      hfo]
  | some p =>
    obtain ⟨y, x⟩ := p
    obtain ⟨hy, hfi⟩ := firstOccurrence_lt card.cells v x y hfo
    have hxr : x < (card.cells.getD y []).length := findInRow_lt _ v x hfi
    have hrown : (card.cells.getD y []).length = n := by
      have hget : card.cells.getD y [] = card.cells.get ⟨y, hy⟩ := by
        simp [List.getD_eq_getElem?_getD, ← List.get?_eq_getElem?,
          List.get?_eq_get hy]
      rw [hget]
      exact h _ (List.get_mem card.cells y hy)
    have hwf' : uniformRows (markCellsSpec card.cells y x) n :=
      uniformRows_set_mark card.cells n x y hy h
    simp only [markValue, markCells_found card.cells v x y hfo, markValueSpec,
      hfo]
    generalize hM : markCellsSpec card.cells y x = M at hwf'
    have hxb : ∀ r ∈ M, x < r.length := fun r hr => by
      rw [hwf' r hr, ← hrown]
      exact hxr
    simp only [solveCheck]
    by_cases hrow : rowAllMarked ((M[y]?).getD [])
    · simp [hrow]
    · rw [show colAllMarked M x = some (colMarkedSpec M x) from colAllMarked_eq M x hxb]
      cases hcol : colMarkedSpec M x <;> simp [hrow, hcol]

theorem markValueSpec_wf (card : BingoCard) (v n : Nat)
    (h : uniformRows card.cells n) :
    uniformRows (markValueSpec card v).2.cells n := by
  cases hfo : firstOccurrence card.cells v with
  | none => simpa [markValueSpec, hfo] using h
  | some p =>
    obtain ⟨y, x⟩ := p
    obtain ⟨hy, _⟩ := firstOccurrence_lt card.cells v x y hfo
    simpa [markValueSpec, hfo, solveCheck] using
      uniformRows_set_mark card.cells n x y hy h

theorem markValueSpec_status (card : BingoCard) (v : Nat) :
    (markValueSpec card v).1 = (markValueSpec card v).2.status := by
  cases hfo : firstOccurrence card.cells v <;>
    simp [markValueSpec, hfo, solveCheck]

theorem markValue_total_wf (card : BingoCard) (v : Nat) (h : cardWF card) :
    markValue card v = some (markValueSpec card v) ∧
      cardWF (markValueSpec card v).2 := by
  obtain ⟨n, hn⟩ := h
  exact ⟨markValue_eq_spec card v n hn, n, markValueSpec_wf card v n hn⟩

/-! ## Claims -/

/-- Claim C5: the game parser's fold is absorbing on `Error` (every further
chunk leaves the state unchanged, so the first captured error survives to
the end), and only the `Boards` state converts to a successful game: the
`Error` state surfaces its captured error wrapped with parse context, and
every other terminal state — `WaitingForCalls` as well as `Calls`, the
state left when zero card chunks followed the calls line — converts to the
"unable to parse game" unknown error. -/
theorem claim_C5 :
    (∀ (e : ParseErr) (chunks : List (List Char)),
      chunks.foldl stepChunk (.Error e) = .Error e) ∧
    (∀ calls cards, tryFromState (.Boards calls cards) =
      .ok { calls := calls, cards := cards }) ∧
    tryFromState .WaitingForCalls = .error .unknownFailure ∧
    (∀ calls, tryFromState (.Calls calls) = .error .unknownFailure) ∧
    (∀ e, tryFromState (.Error e) = .error (.parseFailure e)) := by
  refine ⟨fun e chunks => ?_, fun _ _ => rfl, rfl, fun _ => rfl, fun _ => rfl⟩
  induction chunks with
  | nil => rfl
  | cons c cs ih => simpa [stepChunk] using ih

/-- Claim C1: on any card whose rows share one length, `mark_value v` marks
the first cell in row-major order whose value equals `v`, transitions the
status to `Solved` with call `v` and the post-mark unmarked sum exactly
when the freshly marked cell's row or column is then entirely marked, and
returns the card's current status — that is, `mark_value` coincides with
the specification-level `markValueSpec` (and does not panic). -/
theorem claim_C1 (card : BingoCard) (v n : Nat) (h : uniformRows card.cells n) :
    markValue card v = some (markValueSpec card v) :=
  markValue_eq_spec card v n h

/-- Witness for claim C1: the two-by-two card, marking value 1. -/
theorem claim_C1_witness : markValue cexCard 1 = some (markValueSpec cexCard 1) :=
  claim_C1 cexCard 1 2 (by unfold uniformRows; decide)

/-- Claim C8: marking a value that appears on no cell of a card leaves the
status and every cell untouched and returns the prior status. -/
theorem claim_C8 (card : BingoCard) (v : Nat)
    (h : ∀ r ∈ card.cells, ∀ c ∈ r, c.value ≠ v) :
    markValue card v = some (card.status, card) := by
  simp only [markValue, markCells_not_found card.cells v h]

/-- Witness for claim C8: the value 100 appears nowhere on `cexCard`. -/
theorem claim_C8_witness :
    markValue cexCard 100 = some (cexCard.status, cexCard) :=
  claim_C8 cexCard 100 (by decide)

/-- Counterexample to claim C2: `cexCard` solves with payload
`call = 2, sum = 7`, yet a later `mark_value 3` completes its first column
and overwrites the stored payload to `call = 3, sum = 4` — the code never
checks whether the status is already `Solved` before storing a new one. -/
theorem claim_C2_counterexample :
    (markStep (markStep cexCard 1) 2).status = .Solved 2 7 ∧
    (markStep (markStep (markStep cexCard 1) 2) 3).status = .Solved 3 4 := by
  decide

/-- Claim C2 as amended: on a card already `Solved c s`, a further
`mark_value v` still scans and marks, and the stored/returned status is
either the old `Solved c s` (when the mark completes no row or column) or
is overwritten to `Solved v` with the new unmarked sum (when it does):
`Solved` is not a one-way latch at the card level. -/
theorem claim_C2_amended (card : BingoCard) (v c s : Nat)
    (hst : card.status = .Solved c s)
    (st : BingoCardStatus) (card' : BingoCard)
    (hmark : markValue card v = some (st, card')) :
    st = card'.status ∧
    (st = .Solved c s ∨ st = .Solved v (unmarkedSum card'.cells)) := by
  rcases hmc : markCells card.cells v with ⟨cells', marked⟩
  simp only [markValue, hmc] at hmark
  match marked with
  | none =>
    simp only [Option.some_inj, Prod.mk.injEq] at hmark
    exact ⟨by rw [← hmark.1, ← hmark.2, hst], Or.inl (hmark.1 ▸ hst)⟩
  | some (x, y) =>
    simp only at hmark
    by_cases hrow : rowAllMarked (cells'.getD y []) = true
    · simp only [hrow, if_true, Option.some_inj, Prod.mk.injEq] at hmark
      refine ⟨by rw [← hmark.1, ← hmark.2], Or.inr ?_⟩
      rw [← hmark.1, ← hmark.2]
    · simp only [hrow, if_false, Bool.false_eq_true] at hmark
      match hcol : colAllMarked cells' x with
      | none => rw [hcol] at hmark; exact absurd hmark (by simp)
      | some true =>
        rw [hcol] at hmark
        simp only [Option.some_inj, Prod.mk.injEq] at hmark
        refine ⟨by rw [← hmark.1, ← hmark.2], Or.inr ?_⟩
        rw [← hmark.1, ← hmark.2]
      | some false =>
        rw [hcol] at hmark
        simp only [Option.some_inj, Prod.mk.injEq] at hmark
        exact ⟨by rw [← hmark.1, ← hmark.2, hst], Or.inl (hmark.1 ▸ hst)⟩

/-- Witness for the amended claim C2: the solved two-by-two card keeps its
payload when `mark_value 5` completes nothing. -/
theorem claim_C2_amended_witness :
    BingoCardStatus.Solved 2 7 = (markStep (markStep cexCard 1) 2).status ∧
    (BingoCardStatus.Solved 2 7 = BingoCardStatus.Solved 2 7 ∨
     BingoCardStatus.Solved 2 7 =
       .Solved 5 (unmarkedSum (markStep (markStep cexCard 1) 2).cells)) :=
  claim_C2_amended (markStep (markStep cexCard 1) 2) 5 2 7 (by decide)
    (.Solved 2 7) (markStep (markStep cexCard 1) 2) (by decide)

/-- Claim C7: on the concrete test input, whose call list begins
`7,4,9,5,11,17,23,2,0,14,21,24` and whose third card's top row is
`14 21 17 24 4`, `find_winning_call` returns `Solved 24 188` and
`find_last_winner` (on the freshly parsed game) returns `Solved 13 148`. -/
theorem claim_C7 :
    (gameFromStr testInputChars).toOption.map (fun g => g.calls.take 12) =
      some [7, 4, 9, 5, 11, 17, 23, 2, 0, 14, 21, 24] ∧
    (gameFromStr testInputChars).toOption.map
        (fun g => (g.cards.getD 2 default).cells.getD 0 []) =
      some [⟨14, .Unmarked⟩, ⟨21, .Unmarked⟩, ⟨17, .Unmarked⟩,
        ⟨24, .Unmarked⟩, ⟨4, .Unmarked⟩] ∧
    (gameFromStr testInputChars).toOption.map findWinningCall =
      some (some (.Solved 24 188)) ∧
    (gameFromStr testInputChars).toOption.map findLastWinner =
      some (some (some (.Solved 13 148))) := by
  decide

theorem ok_of_toOption {ε α : Type} (e : Except ε α) (a : α)
    (h : e.toOption = some a) : e = .ok a := by
  cases e with
  | error err => simp [Except.toOption] at h
  | ok b =>
    simp only [Except.toOption, Option.some_inj] at h
    rw [h]

theorem parseBingoCell_status (f : List Char) (c : BingoCell)
    (h : parseBingoCell f = .ok c) : c.status = .Unmarked := by
  unfold parseBingoCell at h
  cases hp : parseU64 (trimSpaces f) with
  | none => simp [hp] at h
  | some n =>
    simp only [hp] at h
    cases h
    rfl

theorem parseRowCells_ok (fields : List (List Char)) (row : List BingoCell)
    (h : parseRowCells fields = .ok row) :
    row.length = fields.length ∧ ∀ c ∈ row, c.status = .Unmarked := by
  induction fields generalizing row with
  | nil =>
    cases h
    exact ⟨rfl, by simp⟩
  | cons f rest ih =>
    simp only [parseRowCells] at h
    cases hc : parseBingoCell f with
    | error e => simp [hc] at h
    | ok c =>
      cases hr : parseRowCells rest with
      | error e => simp [hc, hr] at h
      | ok cs =>
        simp only [hc, hr] at h
        cases h
        obtain ⟨h1, h2⟩ := ih cs hr
        refine ⟨by simp [h1], fun c' hc' => ?_⟩
        rcases List.mem_cons.mp hc' with rfl | hmem
        · exact parseBingoCell_status f c' hc
        · exact h2 c' hmem

theorem collectRows_ok_mem (rows : List (Except ParseErr (List BingoCell)))
    (out : List (List BingoCell)) (h : collectRows rows = .ok out) :
    ∀ r ∈ out, ∃ e ∈ rows, e = .ok r := by
  induction rows generalizing out with
  | nil =>
    cases h
    simp
  | cons e rest ih =>
    simp only [collectRows] at h
    cases e with
    | error err => simp at h
    | ok row =>
      cases hr : collectRows rest with
      | error err => simp [hr] at h
      | ok rows' =>
        simp only [hr] at h
        cases h
        intro r hrr
        rcases List.mem_cons.mp hrr with rfl | hmem
        · exact ⟨.ok r, List.mem_cons_self _ _, rfl⟩
        · obtain ⟨e', he', heq⟩ := ih rows' hr r hmem
          exact ⟨e', List.mem_cons_of_mem _ he', heq⟩

theorem rowFields_length (l : List Char) (fields : List (List Char))
    (h : rowFields l = some fields) : fields.length = 5 := by
  unfold rowFields at h
  split at h
  · split at h
    · cases h
      rfl
    · cases h
  · cases h

theorem parseCardLines_inv (ls : List (List Char)) (card : BingoCard)
    (h : parseCardLines ls = .ok card) :
    ∀ r ∈ card.cells, r.length = 5 ∧ ∀ c ∈ r, c.status = .Unmarked := by
  unfold parseCardLines at h
  cases hcr : collectRows
      ((ls.take 5).filterMap fun l => (rowFields l).map parseRowCells) with
  | error e => simp [hcr] at h
  | ok cells =>
    simp only [hcr] at h
    cases h
    intro r hr
    obtain ⟨e, he, her⟩ := collectRows_ok_mem _ _ hcr r hr
    obtain ⟨l, hl, hfl⟩ := List.mem_filterMap.mp he
    rw [Option.map_eq_some'] at hfl
    obtain ⟨fields, hfields, hpe⟩ := hfl
    have hok : parseRowCells fields = .ok r := by rw [hpe, her]
    obtain ⟨hlen, hunm⟩ := parseRowCells_ok fields r hok
    exact ⟨by rw [hlen, rowFields_length l fields hfields], hunm⟩

theorem parseCard_rows5 (s : List Char) (card : BingoCard)
    (h : parseCard s = .ok card) : uniformRows card.cells 5 :=
  fun r hr => (parseCardLines_inv (rustLines s) card h r hr).1

theorem stepChunk_boardsInv (st : BingoGameParserState) (c : List Char)
    (h : boardsInv st) : boardsInv (stepChunk st c) := by
  cases st with
  | WaitingForCalls =>
    simp only [stepChunk]
    cases parseCalls c <;> simp [boardsInv]
  | Calls calls =>
    simp only [stepChunk]
    cases hp : parseCard c with
    | error e => simp [boardsInv]
    | ok card =>
      refine ⟨by simp, fun card' hc' => ?_⟩
      rcases List.mem_singleton.mp hc' with rfl
      exact parseCard_rows5 c card' hp
  | Boards calls cards =>
    simp only [stepChunk]
    cases hp : parseCard c with
    | error e => simp [boardsInv]
    | ok card =>
      obtain ⟨h1, h2⟩ := h
      refine ⟨by simp, fun card' hc' => ?_⟩
      rcases List.mem_append.mp hc' with hmem | hmem
      · exact h2 card' hmem
      · rcases List.mem_singleton.mp hmem with rfl
        exact parseCard_rows5 c card' hp
  | Error e => exact h

theorem foldChunks_boardsInv (chunks : List (List Char))
    (st : BingoGameParserState) (h : boardsInv st) :
    boardsInv (chunks.foldl stepChunk st) := by
  induction chunks generalizing st with
  | nil => exact h
  | cons c cs ih => exact ih (stepChunk st c) (stepChunk_boardsInv st c h)

theorem find?_append_first {α : Type} (l₁ l₂ : List α) (p : α → Bool) (a : α)
    (h : l₁.find? p = some a) : (l₁ ++ l₂).find? p = some a := by
  rw [List.find?_append, h]
  rfl

theorem find?_append_none {α : Type} (l₁ l₂ : List α) (p : α → Bool)
    (h : l₁.find? p = none) : (l₁ ++ l₂).find? p = l₂.find? p := by
  rw [List.find?_append, h]
  rfl

theorem runCallFirst_all (cards : List BingoCard) (c : Nat)
    (h : ∀ card ∈ cards, cardWF card) :
    ∃ cards' sts, runCallAll cards c = some (cards', sts) ∧
      (∀ card' ∈ cards', cardWF card') ∧
      ((sts.find? isSolved = none → runCallFirst cards c = some (cards', none)) ∧
       (∀ st, sts.find? isSolved = some st →
         ∃ cards'', runCallFirst cards c = some (cards'', some st))) := by
  induction cards with
  | nil =>
    exact ⟨[], [], rfl, by simp, fun _ => rfl, fun st hst => by simp [List.find?] at hst⟩
  | cons card rest ih =>
    obtain ⟨hmv0, hwf0⟩ := markValue_total_wf card c (h card (List.mem_cons_self _ _))
    rcases hsp : markValueSpec card c with ⟨st0, card0⟩
    rw [hsp] at hmv0 hwf0
    obtain ⟨cards', sts, hall, hwf', hnone, hsome⟩ :=
      ih fun card' hm => h card' (List.mem_cons_of_mem _ hm)
    refine ⟨card0 :: cards', st0 :: sts, by simp [runCallAll, hmv0, hall], ?_, ?_, ?_⟩
    · intro x hx
      rcases List.mem_cons.mp hx with rfl | hmem
      · exact hwf0
      · exact hwf' x hmem
    · intro hf
      cases hs0 : isSolved st0 with
      | true => rw [List.find?_cons_of_pos _ hs0] at hf; cases hf
      | false =>
        rw [List.find?_cons_of_neg _ (by simp [hs0])] at hf
        cases st0 with
        | Solved cl s => simp [isSolved] at hs0
        | Unsolved => simp [runCallFirst, hmv0, hnone hf]
    · intro st hf
      cases hs0 : isSolved st0 with
      | true =>
        rw [List.find?_cons_of_pos _ hs0] at hf
        cases hf
        cases st0 with
        | Unsolved => simp [isSolved] at hs0
        | Solved cl s => exact ⟨card0 :: rest, by simp [runCallFirst, hmv0]⟩
      | false =>
        rw [List.find?_cons_of_neg _ (by simp [hs0])] at hf
        cases st0 with
        | Solved cl s => simp [isSolved] at hs0
        | Unsolved =>
          obtain ⟨cards'', hcf⟩ := hsome st hf
          exact ⟨card0 :: cards'', by simp [runCallFirst, hmv0, hcf]⟩

theorem findWinningCallAux_spec (calls : List Nat) (cards : List BingoCard)
    (h : ∀ card ∈ cards, cardWF card) :
    ∃ tr, markTrace calls cards = some tr ∧
      findWinningCallAux calls cards = some ((tr.find? isSolved).getD .Unsolved) := by
  induction calls generalizing cards with
  | nil => exact ⟨[], rfl, rfl⟩
  | cons c cs ih =>
    obtain ⟨cards', sts, hall, hwf', hnone, hsome⟩ := runCallFirst_all cards c h
    obtain ⟨tr', htr', haux⟩ := ih cards' hwf'
    refine ⟨sts ++ tr', by simp [markTrace, hall, htr'], ?_⟩
    cases hf : sts.find? isSolved with
    | some st =>
      obtain ⟨cards'', hcf⟩ := hsome st hf
      rw [find?_append_first sts tr' isSolved st hf]
      simp [findWinningCallAux, hcf]
    | none =>
      rw [find?_append_none sts tr' isSolved hf]
      simp [findWinningCallAux, hnone hf, haux]

theorem getLast?_cons_or {α : Type} (a : α) (l : List α) (w : Option α) :
    ((a :: l).getLast?).or w = (l.getLast?).or (some a) := by
  rw [List.getLast?_cons]
  cases hgl : l.getLast? <;> simp

theorem allSolved_skip (cards : List BingoCard) (c : Nat)
    (h : ∀ card ∈ cards, isSolved card.status = true) :
    runCallSkip cards c = some (cards, []) := by
  induction cards with
  | nil => rfl
  | cons card rest ih =>
    have hc := h card (List.mem_cons_self _ _)
    have hne : ¬ card.status = .Unsolved := by
      intro habs
      rw [habs] at hc
      simp [isSolved] at hc
    simp [runCallSkip, hne,
      ih fun card' hm => h card' (List.mem_cons_of_mem _ hm)]

theorem skipTrace_allSolved (calls : List Nat) (cards : List BingoCard)
    (h : ∀ card ∈ cards, isSolved card.status = true) :
    skipTrace calls cards = some [] := by
  induction calls with
  | nil => rfl
  | cons c cs ih => simp [skipTrace, allSolved_skip cards c h, ih]

theorem runCallLast_eq (cards : List BingoCard) (c : Nat)
    (winCount cardCount : Nat) (lastWin : Option BingoCardStatus)
    (h : ∀ card ∈ cards, cardWF card)
    (hu : winCount + (cards.countP fun card => ! isSolved card.status) ≤ cardCount) :
    ∃ cards' tr, runCallSkip cards c = some (cards', tr) ∧
      (∀ card' ∈ cards', cardWF card') ∧
      (cards'.countP fun card => ! isSolved card.status) + tr.length =
        (cards.countP fun card => ! isSolved card.status) ∧
      ((tr = [] ∨ winCount + tr.length ≠ cardCount →
        runCallLast cards c winCount lastWin cardCount =
          some (.inl (cards', winCount + tr.length, (tr.getLast?).or lastWin))) ∧
       (tr ≠ [] → winCount + tr.length = cardCount →
        runCallLast cards c winCount lastWin cardCount = some (.inr tr.getLast?))) := by
  induction cards generalizing winCount lastWin with
  | nil =>
    refine ⟨[], [], rfl, by simp, by simp, fun _ => by simp [runCallLast], ?_⟩
    intro hne _
    exact absurd rfl hne
  | cons card rest ih =>
    have hwrest : ∀ card' ∈ rest, cardWF card' :=
      fun card' hm => h card' (List.mem_cons_of_mem _ hm)
    by_cases hsolved : card.status = .Unsolved
    · have hiS : isSolved card.status = false := by rw [hsolved]; rfl
      have hucons : (card :: rest).countP (fun card => ! isSolved card.status) =
          (rest.countP fun card => ! isSolved card.status) + 1 := by
        rw [List.countP_cons]
        simp [hiS]
      obtain ⟨hmv0, hwf0⟩ := markValue_total_wf card c (h card (List.mem_cons_self _ _))
      rcases hsp : markValueSpec card c with ⟨st0, card0⟩
      rw [hsp] at hmv0 hwf0
      have hst0 : st0 = card0.status := by
        have hms := markValueSpec_status card c
        rw [hsp] at hms
        exact hms
      cases st0 with
      | Unsolved =>
        obtain ⟨cards'', tr, hskip, hwf'', hcnt, hinl, hinr⟩ :=
          ih winCount lastWin hwrest (by rw [hucons] at hu; omega)
        have hc0 : isSolved card0.status = false := by rw [← hst0]; rfl
        refine ⟨card0 :: cards'', tr, ?_, ?_, ?_, ?_, ?_⟩
        · simp [runCallSkip, hsolved, hmv0, hskip, isSolved]
        · intro x hx
          rcases List.mem_cons.mp hx with rfl | hmem
          · exact hwf0
          · exact hwf'' x hmem
        · rw [List.countP_cons, hucons]
          simp [hc0]
          omega
        · intro hpre
          simp [runCallLast, hsolved, hmv0, hinl hpre]
        · intro hne hex
          simp [runCallLast, hsolved, hmv0, hinr hne hex]
      | Solved cl s =>
        have hc0 : isSolved card0.status = true := by rw [← hst0]; rfl
        by_cases hexit : winCount + 1 = cardCount
        · have hrest0 : (rest.countP fun card => ! isSolved card.status) = 0 := by
            rw [hucons] at hu
            omega
          have hallS : ∀ card' ∈ rest, isSolved card'.status = true := by
            intro card' hm
            have := List.countP_eq_zero.mp hrest0 card' hm
            simpa using this
          refine ⟨card0 :: rest, [.Solved cl s], ?_, ?_, ?_, ?_, ?_⟩
          · simp [runCallSkip, hsolved, hmv0, allSolved_skip rest c hallS, isSolved]
          · intro x hx
            rcases List.mem_cons.mp hx with rfl | hmem
            · exact hwf0
            · exact hwrest x hmem
          · rw [List.countP_cons, hucons]
            simp [hc0]
          · intro hpre
            rcases hpre with h1 | h2
            · simp at h1
            · simp at h2
              exact absurd hexit h2
          · intro _ _
            simp [runCallLast, hsolved, hmv0, hexit]
        · obtain ⟨cards'', tr, hskip, hwf'', hcnt, hinl, hinr⟩ :=
            ih (winCount + 1) (some (.Solved cl s)) hwrest
              (by rw [hucons] at hu; omega)
          refine ⟨card0 :: cards'', .Solved cl s :: tr, ?_, ?_, ?_, ?_, ?_⟩
          · simp [runCallSkip, hsolved, hmv0, hskip, isSolved]
          · intro x hx
            rcases List.mem_cons.mp hx with rfl | hmem
            · exact hwf0
            · exact hwf'' x hmem
          · rw [List.countP_cons, hucons, List.length_cons]
            simp [hc0]
            omega
          · intro hpre
            have hpre' : tr = [] ∨ (winCount + 1) + tr.length ≠ cardCount := by
              rcases hpre with h1 | h2
              · simp at h1
              · exact Or.inr (by simp at h2; omega)
            have hrl := hinl hpre'
            have harith : winCount + 1 + tr.length =
                winCount + (BingoCardStatus.Solved cl s :: tr).length := by
              simp
              omega
            have hgl := getLast?_cons_or (BingoCardStatus.Solved cl s) tr lastWin
            simp [runCallLast, hsolved, hmv0, hexit, hrl, ← harith, ← hgl]
            omega
          · intro hne hex
            cases htr : tr with
            | nil =>
              rw [htr] at hex
              simp at hex
              exact absurd hex hexit
            | cons z zs =>
              have hex' : (winCount + 1) + tr.length = cardCount := by
                rw [htr] at hex ⊢
                simp at hex ⊢
                omega
              have hrl := hinr (by rw [htr]; simp) hex'
              rw [htr] at hrl
              simp [runCallLast, hsolved, hmv0, hexit, htr, hrl,
                List.getLast?_cons_cons]
    · have hiS : isSolved card.status = true := by
        cases hst : card.status with
        | Unsolved => exact absurd hst hsolved
        | Solved cl s => rfl
      have hucons : (card :: rest).countP (fun card => ! isSolved card.status) =
          (rest.countP fun card => ! isSolved card.status) := by
        rw [List.countP_cons]
        simp [hiS]
      obtain ⟨cards'', tr, hskip, hwf'', hcnt, hinl, hinr⟩ :=
        ih winCount lastWin hwrest (by rw [hucons] at hu; omega)
      refine ⟨card :: cards'', tr, ?_, ?_, ?_, ?_, ?_⟩
      · simp [runCallSkip, hsolved, hskip]
      · intro x hx
        rcases List.mem_cons.mp hx with rfl | hmem
        · exact h x (List.mem_cons_self _ _)
        · exact hwf'' x hmem
      · rw [List.countP_cons, hucons]
        simp [hiS]
        omega
      · intro hpre
        simp [runCallLast, hsolved, hinl hpre]
      · intro hne hex
        simp [runCallLast, hsolved, hinr hne hex]

theorem findLastWinnerAux_spec (calls : List Nat) (cards : List BingoCard)
    (winCount cardCount : Nat) (lastWin : Option BingoCardStatus)
    (h : ∀ card ∈ cards, cardWF card)
    (hu : winCount + (cards.countP fun card => ! isSolved card.status) ≤ cardCount) :
    ∃ tr, skipTrace calls cards = some tr ∧
      findLastWinnerAux calls cards winCount lastWin cardCount =
        some ((tr.getLast?).or lastWin) := by
  induction calls generalizing cards winCount lastWin with
  | nil => exact ⟨[], rfl, by simp [findLastWinnerAux]⟩
  | cons c cs ih =>
    obtain ⟨cards', tr1, hskip, hwf', hcnt, hinl, hinr⟩ :=
      runCallLast_eq cards c winCount cardCount lastWin h hu
    by_cases hbr : tr1 = [] ∨ winCount + tr1.length ≠ cardCount
    · have hrl := hinl hbr
      obtain ⟨tr2, htr2, haux2⟩ :=
        ih cards' (winCount + tr1.length) ((tr1.getLast?).or lastWin) hwf'
          (by omega)
      refine ⟨tr1 ++ tr2, by simp [skipTrace, hskip, htr2], ?_⟩
      simp only [findLastWinnerAux, hrl, haux2]
      rw [List.getLast?_append, Option.or_assoc]
    · push_neg at hbr
      obtain ⟨hne, hex⟩ := hbr
      have hrl := hinr hne hex
      have hc0 : (cards'.countP fun card => ! isSolved card.status) = 0 := by
        omega
      have hallS : ∀ card' ∈ cards', isSolved card'.status = true := by
        intro card' hm
        have := List.countP_eq_zero.mp hc0 card' hm
        simpa using this
      refine ⟨tr1, by simp [skipTrace, hskip, skipTrace_allSolved cs cards' hallS], ?_⟩
      simp only [findLastWinnerAux, hrl]
      cases tr1 with
      | nil => exact absurd rfl hne
      | cons z zs => rw [List.getLast?_cons]; rfl

theorem runCallLast_frozen (cards : List BingoCard) (c : Nat)
    (winCount cardCount : Nat) (lastWin : Option BingoCardStatus)
    (cards' : List BingoCard) (w' : Nat) (l' : Option BingoCardStatus)
    (hrl : runCallLast cards c winCount lastWin cardCount =
      some (.inl (cards', w', l')))
    (i : Nat) (card : BingoCard) (hi : cards.get? i = some card)
    (hs : card.status ≠ .Unsolved) :
    cards'.get? i = some card := by
  induction cards generalizing winCount lastWin cards' w' l' i with
  | nil => cases hi
  | cons hd rest ih =>
    by_cases hh : hd.status = .Unsolved
    · cases hm : markValue hd c with
      | none => simp [runCallLast, hh, hm] at hrl
      | some p =>
        rcases p with ⟨st0, card0⟩
        cases st0 with
        | Unsolved =>
          cases hrec : runCallLast rest c winCount lastWin cardCount with
          | none => simp [runCallLast, hh, hm, hrec] at hrl
          | some r =>
            cases r with
            | inr out => simp [runCallLast, hh, hm, hrec] at hrl
            | inl t =>
              rcases t with ⟨rest', w2, l2⟩
              simp only [runCallLast, if_pos hh, hm, hrec, Option.map_some',
                Option.some_inj, Sum.inl.injEq, Prod.mk.injEq] at hrl
              obtain ⟨hcards, _, _⟩ := hrl
              subst hcards
              cases i with
              | zero =>
                simp only [List.get?_cons_zero, Option.some_inj] at hi
                subst hi
                exact absurd hh hs
              | succ j =>
                simp only [List.get?_cons_succ] at hi ⊢
                exact ih winCount lastWin rest' w2 l2 hrec j hi
        | Solved cl s =>
          by_cases hexit : winCount + 1 = cardCount
          · simp [runCallLast, hh, hm, hexit] at hrl
          · cases hrec : runCallLast rest c (winCount + 1)
                (some (.Solved cl s)) cardCount with
            | none => simp [runCallLast, hh, hm, hexit, hrec] at hrl
            | some r =>
              cases r with
              | inr out => simp [runCallLast, hh, hm, hexit, hrec] at hrl
              | inl t =>
                rcases t with ⟨rest', w2, l2⟩
                simp only [runCallLast, if_pos hh, hm, if_neg hexit, hrec,
                  Option.map_some', Option.some_inj, Sum.inl.injEq,
                  Prod.mk.injEq] at hrl
                obtain ⟨hcards, _, _⟩ := hrl
                subst hcards
                cases i with
                | zero =>
                  simp only [List.get?_cons_zero, Option.some_inj] at hi
                  subst hi
                  exact absurd hh hs
                | succ j =>
                  simp only [List.get?_cons_succ] at hi ⊢
                  exact ih (winCount + 1) (some (.Solved cl s)) rest' w2 l2
                    hrec j hi
    · cases hrec : runCallLast rest c winCount lastWin cardCount with
      | none => simp [runCallLast, hh, hrec] at hrl
      | some r =>
        cases r with
        | inr out => simp [runCallLast, hh, hrec] at hrl
        | inl t =>
          rcases t with ⟨rest', w2, l2⟩
          simp only [runCallLast, if_neg hh, hrec, Option.map_some',
            Option.some_inj, Sum.inl.injEq, Prod.mk.injEq] at hrl
          obtain ⟨hcards, _, _⟩ := hrl
          subst hcards
          cases i with
          | zero =>
            simp only [List.get?_cons_zero, Option.some_inj] at hi ⊢
            exact hi
          | succ j =>
            simp only [List.get?_cons_succ] at hi ⊢
            exact ih winCount lastWin rest' w2 l2 hrec j hi

/-- Claim C6: card parsing looks only at the first five lines of a block; a
line the row shape rejects is silently skipped and contributes no row;
every parsed cell starts `Unmarked`; and a malformed block can yield a
short, non-square card — `shortCardBlock`, whose first line is junk,
parses successfully into a card of four five-cell rows. -/
theorem claim_C6 :
    (∀ ls : List (List Char), parseCardLines ls = parseCardLines (ls.take 5)) ∧
    (∀ (l : List Char) (ls : List (List Char)), rowFields l = none →
      parseCardLines (l :: ls) = parseCardLines (ls.take 4)) ∧
    (∀ (s : List Char) (card : BingoCard), parseCard s = .ok card →
      ∀ r ∈ card.cells, ∀ c ∈ r, c.status = .Unmarked) ∧
    (parseCard shortCardBlock.data).toOption.map
      (fun card => card.cells.map List.length) = some [5, 5, 5, 5] := by
  refine ⟨fun ls => ?_, fun l ls h => ?_, fun s card h => ?_, by decide⟩
  · simp [parseCardLines, List.take_take]
  · simp [parseCardLines, List.take_succ_cons, List.filterMap_cons, h,
      List.take_take]
  · exact fun r hr c hc =>
      (parseCardLines_inv (rustLines s) card h r hr).2 c hc

/-- Witness for claim C6: the skip clause applied to a junk line, and the
all-unmarked clause applied to the concrete short card. -/
theorem claim_C6_witness :
    parseCardLines [['x'], ['y']] = parseCardLines ([['y']].take 4) ∧
    ∀ r ∈ shortCard.cells, ∀ c ∈ r, c.status = .Unmarked :=
  ⟨claim_C6.2.1 ['x'] [['y']] (by decide),
   claim_C6.2.2.1 shortCardBlock.data shortCard
     (ok_of_toOption _ _ (by decide))⟩

/-- Counterexample to claim C9: `mismatchInput` parses successfully, yet
its first card has five rows and its second card zero rows — the cards of
a successfully parsed game need not have identical dimensions. -/
theorem claim_C9_counterexample :
    (gameFromStr mismatchInput.data).toOption.map
      (fun g => g.cards.map fun card => card.cells.length) = some [5, 0] := by
  decide

theorem gameFromStr_inv (s : List Char) (g : BingoGame)
    (h : gameFromStr s = .ok g) :
    g.cards ≠ [] ∧ ∀ card ∈ g.cards, uniformRows card.cells 5 := by
  unfold gameFromStr at h
  have hinv := foldChunks_boardsInv (splitChunks s) .WaitingForCalls trivial
  cases hst : (splitChunks s).foldl stepChunk .WaitingForCalls with
  | Boards calls cards =>
    rw [hst] at h hinv
    cases h
    exact hinv
  | WaitingForCalls => rw [hst] at h; cases h
  | Calls calls => rw [hst] at h; cases h
  | Error e => rw [hst] at h; cases h

theorem gameFromStr_wf (s : List Char) (g : BingoGame)
    (h : gameFromStr s = .ok g) : gameWF g :=
  fun card hm => ⟨5, (gameFromStr_inv s g h).2 card hm⟩

/-- Claim C9 as amended: on every input the game parser accepts, the card
list is non-empty and every row of every card has exactly five cells; the
cards' row counts, however, may differ (a malformed block yields a card
with fewer rows), so identical dimensions are not guaranteed. -/
theorem claim_C9_amended (s : List Char) (g : BingoGame)
    (h : gameFromStr s = .ok g) :
    g.cards ≠ [] ∧ ∀ card ∈ g.cards, uniformRows card.cells 5 :=
  gameFromStr_inv s g h

/-- Witness for the amended claim C9: the concrete mismatched game. -/
theorem claim_C9_witness :
    mismatchGame.cards ≠ [] ∧
    ∀ card ∈ mismatchGame.cards, uniformRows card.cells 5 :=
  claim_C9_amended mismatchInput.data mismatchGame
    (ok_of_toOption _ _ (by decide))

/-- Claim C10: every card a successful parse produces has rows of exactly
five cells, so the column check `r[x]` of `mark_value` (with `x < 5`) is
always in bounds: `mark_value` never panics on such a card — even one with
fewer than five rows — and it preserves the five-cell-row shape, so
repeated marking stays panic-free. -/
theorem claim_C10 (s : List Char) (card : BingoCard)
    (h : parseCard s = .ok card) :
    uniformRows card.cells 5 ∧
    (∀ v, markValue card v ≠ none) ∧
    (∀ v st card', markValue card v = some (st, card') →
      uniformRows card'.cells 5) := by
  have h5 := parseCard_rows5 s card h
  refine ⟨h5, fun v => ?_, fun v st card' hm => ?_⟩
  · rw [markValue_eq_spec card v 5 h5]
    simp
  · rw [markValue_eq_spec card v 5 h5] at hm
    have h2 : markValueSpec card v = (st, card') := Option.some_inj.mp hm
    have hcells := congrArg (fun p => p.2.cells) h2
    simp only at hcells
    rw [← hcells]
    exact markValueSpec_wf card v 5 h5

/-- Claim C3: on any well-formed game, `find_winning_call` iterates calls
in input order and, per call, cards in input order, and returns the first
`Solved` status observed (lower card index wins a simultaneous win), or
`Unsolved` when every call is exhausted without a solve — that is, it
returns the first `Solved` entry of the full status trace `markTrace`,
with `Unsolved` as the default. -/
theorem claim_C3 (g : BingoGame) (h : gameWF g) :
    findWinningCall g = findWinningCallSpec g := by
  obtain ⟨tr, htr, haux⟩ := findWinningCallAux_spec g.calls g.cards h
  simp [findWinningCall, findWinningCallSpec, htr, haux]

/-- Witness for claim C3: the parsed concrete test game. -/
theorem claim_C3_witness : findWinningCall testGame = findWinningCallSpec testGame :=
  claim_C3 testGame
    (gameFromStr_wf testInputChars testGame (ok_of_toOption _ _ (by decide)))

/-- Claim C4: on any well-formed game, `find_last_winner` marks only cards
still `Unsolved` (an already-solved card passes through every inner loop
iteration untouched, its status and cells frozen), tracks the solved count
and the most recent `Solved` transition, returns that status as soon as
the count reaches the number of cards, and otherwise returns the last
`Solved` transition seen (or none): its result is the last entry of the
transition trace of the skipping simulation, `findLastWinnerSpec`. -/
theorem claim_C4 (g : BingoGame) (h : gameWF g) :
    findLastWinner g = findLastWinnerSpec g ∧
    (∀ (c winCount cardCount : Nat) (lastWin : Option BingoCardStatus)
      (cards' : List BingoCard) (w' : Nat) (l' : Option BingoCardStatus),
      runCallLast g.cards c winCount lastWin cardCount =
        some (.inl (cards', w', l')) →
      ∀ (i : Nat) (card : BingoCard), g.cards.get? i = some card →
        card.status ≠ .Unsolved → cards'.get? i = some card) := by
  constructor
  · obtain ⟨tr, hst, haux⟩ :=
      findLastWinnerAux_spec g.calls g.cards 0 g.cards.length none h
        (by simpa using List.countP_le_length _)
    simp [findLastWinner, findLastWinnerSpec, hst, haux, Option.or_none]
  · intro c winCount cardCount lastWin cards' w' l' hrl i card hi hs
    exact runCallLast_frozen g.cards c winCount cardCount lastWin cards' w' l'
      hrl i card hi hs

/-- Witness for claim C4: the parsed concrete test game. -/
theorem claim_C4_witness :
    findLastWinner testGame = findLastWinnerSpec testGame ∧
    (∀ (c winCount cardCount : Nat) (lastWin : Option BingoCardStatus)
      (cards' : List BingoCard) (w' : Nat) (l' : Option BingoCardStatus),
      runCallLast testGame.cards c winCount lastWin cardCount =
        some (.inl (cards', w', l')) →
      ∀ (i : Nat) (card : BingoCard), testGame.cards.get? i = some card →
        card.status ≠ .Unsolved → cards'.get? i = some card) :=
  claim_C4 testGame
    (gameFromStr_wf testInputChars testGame (ok_of_toOption _ _ (by decide)))

/-- Witness for claim C10: the concrete four-row card of
`shortCardBlock`. -/
theorem claim_C10_witness :
    uniformRows shortCard.cells 5 ∧
    (∀ v, markValue shortCard v ≠ none) ∧
    (∀ v st card', markValue shortCard v = some (st, card') →
      uniformRows card'.cells 5) :=
  claim_C10 shortCardBlock.data shortCard (ok_of_toOption _ _ (by decide))

end AoC2021.Day04
